import Mathlib

/-!
# Verification of the spectro-cam-rs spectral pipeline (`src/gui.rs`)

Shallow embedding of the spectral signal-processing core of `SpectrometerGui`:
the averaging buffer with dimension-change invalidation, the mean reduction,
gains and reference scaling, the two-pass biquad low-pass filter, the zero
reference subtraction, the peak/dip detector with neighborhood deduplication,
the reference-based calibration action, and the reference import handler.

Numeric samples are `f32` in the source; they are modelled here as exact
rationals `ℚ`.  The nalgebra 3×N matrix `SpectrumRgb` and 4×N matrix
`Spectrum` are modelled as structures of rows (`List ℚ`), with the row-length
invariant carried as hypotheses where needed.  The `VecDeque` buffer is a
list whose head is the front (newest) element.
-/

namespace SpectroCam

/-- One (wavelength, value) pair (`SpectrumPoint` in `config.rs`, used by the
reference curve and by the peak/dip detector). -/
structure SpectrumPoint where
  wavelength : ℚ
  value : ℚ
deriving DecidableEq, Repr

/-- One calibration anchor: a spectral bin index paired with its wavelength
(`SpectrumCalibrationPoint` in `config.rs`). -/
structure SpectrumCalibrationPoint where
  index : ℕ
  wavelength : ℚ
deriving DecidableEq, Repr

/-- Linearization mode (`Linearize` in `config.rs`).  `off` is the identity.
The three named inverse gamma transfer functions (`Rec601`, `Rec709`, `SRgb`)
live in `config.rs`, which is not among the provided sources, and involve
real powers, so they are modelled as an abstract scalar map carried by the
constructor; no claim depends on their exact values. -/
inductive Linearize where
  | off : Linearize
  | gamma : (ℚ → ℚ) → Linearize

/-- The calibration state (`SpectrumCalibration` in `config.rs`): two anchors,
three channel gains, the linearization mode and the optional per-bin scaling
vector set by the reference calibration action. -/
structure SpectrumCalibration where
  low : SpectrumCalibrationPoint
  high : SpectrumCalibrationPoint
  gain_r : ℚ
  gain_g : ℚ
  gain_b : ℚ
  linearize : Linearize
  scaling : Option (List ℚ)

/-- Modelled from the spec: `SpectrumCalibration::get_wavelength_from_index`
is defined in `config.rs`, which is not among the provided sources.  Spec 4.1
gives the affine map
`low.wavelength + (index - low.index) * (high.wavelength - low.wavelength) / (high.index - low.index)`,
linear and not clamped. -/
def SpectrumCalibration.get_wavelength_from_index (c : SpectrumCalibration)
    (i : ℕ) : ℚ :=
  c.low.wavelength +
    ((i : ℚ) - (c.low.index : ℚ)) * (c.high.wavelength - c.low.wavelength) /
      ((c.high.index : ℚ) - (c.low.index : ℚ))

/-- Modelled from the spec: `SpectrumCalibration::get_scaling_factor_from_index`
is defined in `config.rs`, which is not among the provided sources.  Spec 4.1:
the ScalingVector entry at the index if present, else `1.0` (identity). -/
def SpectrumCalibration.get_scaling_factor_from_index (c : SpectrumCalibration)
    (i : ℕ) : ℚ :=
  match c.scaling with
  | none => 1
  | some v => v.getD i 1

/-- Modelled from the spec: `ReferenceConfig::get_value_at_wavelength` is
defined in `config.rs`, which is not among the provided sources.  Spec 4.6 and
7(b): the reference curve is a list of (wavelength, value) samples,
piecewise-interpolated; the lookup produces no value (`none`) when the
requested wavelength falls outside the domain of the curve, distinctly from
"value is zero".  Linear interpolation between consecutive samples. -/
def getValueAtWavelength : List SpectrumPoint → ℚ → Option ℚ
  | [], _ => none
  | [p], w => if p.wavelength = w then some p.value else none
  | p :: q :: rest, w =>
    if p.wavelength ≤ w ∧ w ≤ q.wavelength then
      some (p.value +
        (w - p.wavelength) * (q.value - p.value) / (q.wavelength - p.wavelength))
    else getValueAtWavelength (q :: rest) w

/-- A raw frame (`SpectrumRgb` in `spectrum.rs`): three parallel channel rows
of equal length N (a nalgebra 3×N matrix in the source). -/
structure SpectrumRgb where
  r : List ℚ
  g : List ℚ
  b : List ℚ
deriving DecidableEq, Repr

/-- Column count of a frame (`Matrix::ncols`); rows share one length by the
matrix shape invariant, so the length of row `r` represents it. -/
def SpectrumRgb.ncols (s : SpectrumRgb) : ℕ := s.r.length

/-- Elementwise addition of two frames (matrix `+` in the source). -/
def SpectrumRgb.add (a b : SpectrumRgb) : SpectrumRgb :=
  ⟨List.zipWith (· + ·) a.r b.r, List.zipWith (· + ·) a.g b.g,
    List.zipWith (· + ·) a.b b.b⟩

/-- `SpectrumRgb::from_element(ncols, x)`: a 3×ncols frame filled with `x`. -/
def SpectrumRgb.fromElement (n : ℕ) (x : ℚ) : SpectrumRgb :=
  ⟨List.replicate n x, List.replicate n x, List.replicate n x⟩

/-- Elementwise division of a frame by a scalar (matrix `/ len` in the
source). -/
def SpectrumRgb.divScalar (s : SpectrumRgb) (d : ℚ) : SpectrumRgb :=
  ⟨s.r.map (· / d), s.g.map (· / d), s.b.map (· / d)⟩

/-- Apply a scalar map to every sample of a frame (`iter_mut().for_each` in
`update_spectrum`). -/
def SpectrumRgb.mapAll (f : ℚ → ℚ) (s : SpectrumRgb) : SpectrumRgb :=
  ⟨s.r.map f, s.g.map f, s.b.map f⟩

/-- The built spectrum (`Spectrum` in `spectrum.rs`): rows R, G, B and the
derived Sum row (a nalgebra 4×N matrix in the source). -/
structure Spectrum where
  r : List ℚ
  g : List ℚ
  b : List ℚ
  sum : List ℚ
deriving DecidableEq, Repr

/-- Elementwise subtraction of spectra (`current_spectrum -= zero_reference`
in `update_spectrum`). -/
def Spectrum.sub (a z : Spectrum) : Spectrum :=
  ⟨List.zipWith (· - ·) a.r z.r, List.zipWith (· - ·) a.g z.g,
    List.zipWith (· - ·) a.b z.b, List.zipWith (· - ·) a.sum z.sum⟩

/-- The linearization step of `update_spectrum` (gui.rs 209-213): when the
mode is not `Off`, every raw sample is mapped through the transfer
function before buffering. -/
def linearizeFrame (l : Linearize) (s : SpectrumRgb) : SpectrumRgb :=
  match l with
  | .off => s
  | .gamma f => s.mapAll f

/-- The mutable state of the pipeline owner that the buffer claims concern:
the averaging buffer (`VecDeque`, head = front = newest) and the optional
zero reference. -/
structure GuiState where
  spectrum_buffer : List SpectrumRgb
  zero_reference : Option Spectrum

/-- The dimension-change guard plus linearize, push-front and truncate portion
of `SpectrometerGui::update_spectrum` (gui.rs 198-217): if the buffer is
non-empty and the front frame has a different column count than the incoming
frame, the buffer is cleared and the zero reference dropped; the (possibly
linearized) frame is then pushed at the front and the buffer truncated to
`spectrum_buffer_size`. -/
def pushFrame (lin : Linearize) (bufferSize : ℕ) (st : GuiState)
    (frame : SpectrumRgb) : GuiState :=
  let ncols := frame.ncols
  let cleared : GuiState :=
    match st.spectrum_buffer with
    | [] => st
    | s :: _ => if s.ncols ≠ ncols then ⟨[], none⟩ else st
  let frame2 := linearizeFrame lin frame
  ⟨(frame2 :: cleared.spectrum_buffer).take bufferSize, cleared.zero_reference⟩

/-- The buffer reduction of `update_spectrum` (gui.rs 219-224): the rayon
`par_iter().cloned().reduce(from_element(ncols, 0), +)` is modelled as a left
fold (rational addition is associative and commutative, so the reduction
order of the parallel reduce is immaterial), and the result is divided
elementwise by the CURRENT buffer length. -/
def combinedBuffer (buf : List SpectrumRgb) (ncols : ℕ) : SpectrumRgb :=
  (buf.foldl SpectrumRgb.add (SpectrumRgb.fromElement ncols 0)).divScalar
    (buf.length : ℚ)

/-- Gains, Sum row and optional reference scaling of `update_spectrum`
(gui.rs 226-255): each channel row is scaled by its gain, the Sum row is the
elementwise sum of the three gained rows, and if a scaling vector is set each
Sum bin is multiplied by its scaling factor. -/
def buildSpectrum (cal : SpectrumCalibration) (combined : SpectrumRgb) :
    Spectrum :=
  let r := combined.r.map (· * cal.gain_r)
  let g := combined.g.map (· * cal.gain_g)
  let b := combined.b.map (· * cal.gain_b)
  let sumRow := List.zipWith (· + ·) (List.zipWith (· + ·) r g) b
  ⟨r, g, b,
    if cal.scaling.isSome then
      sumRow.mapIdx (fun i v => v * cal.get_scaling_factor_from_index i)
    else sumRow⟩

/-- Biquad filter coefficients.  In the source they are produced by
`Coefficients::from_params(Type::LowPass, 2.0.hz(), cutoff.hz(), Q_BUTTERWORTH_F32)`
from the external `biquad` crate; the design formulas involve trigonometric
functions, so coefficients are kept abstract here and the concrete design is
a parameter of the pipeline. -/
structure Coefficients where
  b0 : ℚ
  b1 : ℚ
  b2 : ℚ
  a1 : ℚ
  a2 : ℚ
deriving DecidableEq, Repr

/-- The `DirectForm2Transposed` biquad of the external `biquad` crate: two
state registers plus the coefficients. -/
structure DirectForm2Transposed where
  coeffs : Coefficients
  s1 : ℚ
  s2 : ℚ
deriving DecidableEq, Repr

/-- `DirectForm2Transposed::new(coeffs)`: both state registers start at 0. -/
def DirectForm2Transposed.new (c : Coefficients) : DirectForm2Transposed :=
  ⟨c, 0, 0⟩

/-- One `Biquad::run` step of the direct form 2 transposed realization:
`out = s1 + b0 * x`, `s1 = s2 + b1 * x - a1 * out`, `s2 = b2 * x - a2 * out`. -/
def DirectForm2Transposed.run (f : DirectForm2Transposed) (x : ℚ) :
    ℚ × DirectForm2Transposed :=
  let y := f.coeffs.b0 * x + f.s1
  (y, ⟨f.coeffs, f.coeffs.b1 * x + f.s2 - f.coeffs.a1 * y,
    f.coeffs.b2 * x - f.coeffs.a2 * y⟩)

/-- Run the biquad across a list of samples in order, threading the filter
state; returns the outputs and the final state. -/
def runList (f : DirectForm2Transposed) : List ℚ → List ℚ × DirectForm2Transposed
  | [] => ([], f)
  | x :: xs =>
    let step := f.run x
    let rest := runList step.2 xs
    (step.1 :: rest.1, rest.2)

/-- The in-place filtering loop of `update_spectrum` for one row
(gui.rs 268-277): a freshly created biquad runs forward across the row, then
THE SAME biquad object — keeping the state left behind by the forward pass —
runs across the forward output in reverse order, each output overwriting the
sample at its position.  The final row is therefore the reverse of the
second-pass output. -/
def filterChannel (c : Coefficients) (xs : List ℚ) : List ℚ :=
  let fwd := runList (DirectForm2Transposed.new c) xs
  (runList fwd.2 fwd.1.reverse).1.reverse

/-- The filtering loop as the spec words it (spec 4.4 step 7): after the
forward pass, the reverse pass is run by the same filter with its state
freshly initialized.  Stated for comparison with `filterChannel`, which is
what the source does. -/
def filterChannelFresh (c : Coefficients) (xs : List ℚ) : List ℚ :=
  let fwd := runList (DirectForm2Transposed.new c) xs
  (runList (DirectForm2Transposed.new c) fwd.1.reverse).1.reverse

/-- The filter stage of `update_spectrum` (gui.rs 257-278): each of the 4
rows of the assembled spectrum is filtered independently, a fresh biquad
being created per row. -/
def Spectrum.applyFilter (c : Coefficients) (s : Spectrum) : Spectrum :=
  ⟨filterChannel c s.r, filterChannel c s.g, filterChannel c s.b,
    filterChannel c s.sum⟩

/-- Postprocessing settings (`PostprocessingConfig` in `config.rs`): buffer
size, filter flag and normalized cutoff. -/
structure PostprocessingConfig where
  spectrum_buffer_size : ℕ
  spectrum_filter_active : Bool
  spectrum_filter_cutoff : ℚ

/-- The cutoff clamp of `update_spectrum` (gui.rs 258-262):
`cutoff.clamp(0.001, 1.)`. -/
def clampCutoff (q : ℚ) : ℚ := max (1 / 1000) (min q 1)

/-- The whole of `SpectrometerGui::update_spectrum` (gui.rs 198-285) as a
state transition: push the frame through the guard and buffer, reduce the
buffer to its mean, apply gains, Sum and optional reference scaling, filter
the 4 rows when the filter is active, and subtract the zero reference when
set.  The Butterworth coefficient design from the clamped cutoff is the
`coeffs` parameter (its trig formulas live outside ℚ); everything else is
translated from the source.  Returns the new state and the published
spectrum. -/
def updateSpectrum (cal : SpectrumCalibration) (post : PostprocessingConfig)
    (coeffs : Coefficients) (st : GuiState) (frame : SpectrumRgb) :
    GuiState × Spectrum :=
  let st2 := pushFrame cal.linearize post.spectrum_buffer_size st frame
  let combined := combinedBuffer st2.spectrum_buffer frame.ncols
  let assembled := buildSpectrum cal combined
  let filtered :=
    if post.spectrum_filter_active then assembled.applyFilter coeffs
    else assembled
  let final :=
    match st2.zero_reference with
    | some z => filtered.sub z
    | none => filtered
  (st2, final)

/-- The window scan predicate of `spectrum_to_peaks_and_dips`
(gui.rs 314-323) at the window starting at `i`: with `win` the slice of
length `2*w+1` starting at `i`, the center `win[w]` qualifies iff every
other sample of the window is strictly below it (`peaks = true`) or strictly
above it (`peaks = false`). -/
def isCandidate (xs : List ℚ) (w : ℕ) (peaks : Bool) (i : ℕ) : Bool :=
  let win := (xs.drop i).take (2 * w + 1)
  let center := win.getD w 0
  (win.take w ++ win.drop (w + 1)).all fun v =>
    if peaks then decide (v < center) else decide (center < v)

/-- The candidate pass of `spectrum_to_peaks_and_dips` (gui.rs 300-332):
slide a window of size `2*w+1` across the Sum row (`windows(windows_size)`
yields exactly the starts `0 .. len + 1 - (2*w+1)`, none when the row is
shorter than the window); each qualifying center is emitted as a
(wavelength, value) point via the calibration mapping. -/
def findCandidates (cal : SpectrumCalibration) (xs : List ℚ) (w : ℕ)
    (peaks : Bool) : List SpectrumPoint :=
  ((List.range (xs.length + 1 - (2 * w + 1))).filter (isCandidate xs w peaks)).map
    fun i =>
      ⟨cal.get_wavelength_from_index (i + w), ((xs.drop i).take (2 * w + 1)).getD w 0⟩

/-- `Iterator::reduce` with `f32::max` respectively `f32::min`
(gui.rs 347-349): `none` on the empty list, else the fold of the tail from
the head. -/
def reduceExtremum (peaks : Bool) : List ℚ → Option ℚ
  | [] => none
  | x :: xs => some (xs.foldl (if peaks then max else min) x)

/-- The deduplication pass of `spectrum_to_peaks_and_dips` (gui.rs 334-371):
a candidate is kept iff its value equals the reduced maximum (peak mode) or
minimum (dip mode) of the values of all candidates whose wavelength lies
strictly within `± window / 2` of its own.  The source unwraps the reduce
result; the `none` branch of the comparison is unreachable whenever
`window > 0`, because the candidate itself lies in its own neighborhood. -/
def uniqueFilter (pts : List SpectrumPoint) (window : ℚ) (peaks : Bool) :
    List SpectrumPoint :=
  pts.filter fun p =>
    decide (reduceExtremum peaks
      ((pts.filter fun sp =>
        decide (p.wavelength - window / 2 < sp.wavelength) &&
          decide (sp.wavelength < p.wavelength + window / 2)).map
        SpectrumPoint.value) = some p.value)

/-- `SpectrometerGui::spectrum_to_peaks_and_dips` (gui.rs 300-394) on the Sum
row: window scan followed by neighborhood deduplication.  The ±1% label
offset and the marker styling are rendering hints and carry no further data. -/
def spectrumToPeaksDips (cal : SpectrumCalibration) (sumRow : List ℚ) (w : ℕ)
    (window : ℚ) (peaks : Bool) : List SpectrumPoint :=
  uniqueFilter (findCandidates cal sumRow w peaks) window peaks

/-- Result of running code that may hit `Option::unwrap` on `None`:
`crashed` marks the panic, `ok` the normal return. -/
inductive PanicResult (α : Type) where
  | crashed : PanicResult α
  | ok : α → PanicResult α
deriving DecidableEq, Repr

/-- Collect a list of lookup results the way the `collect()` of an iterator
of eagerly unwrapped options behaves: the first `none` panics. -/
def collectUnwrap : List (Option ℚ) → PanicResult (List ℚ)
  | [] => .ok []
  | none :: _ => .crashed
  | some x :: rest =>
    match collectUnwrap rest with
    | .crashed => .crashed
    | .ok xs => .ok (x :: xs)

/-- The "Set Reference as Calibration" action of `draw_calibration_window`
(gui.rs 712-737): for every bin `i` of the Sum row, look the wavelength of
`i` up in the reference curve, `.unwrap()` the result — a panic when the
lookup misses the domain of the curve — and divide it by the Sum value to
obtain the scaling factor. -/
def setReferenceAsCalibration (cal : SpectrumCalibration)
    (ref : List SpectrumPoint) (sumRow : List ℚ) : PanicResult (List ℚ) :=
  collectUnwrap (sumRow.mapIdx fun i v =>
    (getValueAtWavelength ref (cal.get_wavelength_from_index i)).map
      fun refValue => refValue / v)

/-- The state touched by the "Import Reference CSV" button: the stored
reference curve and the last-result label. -/
structure ImportState where
  reference : Option (List SpectrumPoint)
  last_error : Option (Except String Unit)

/-- The import handler of `draw_import_export_window` (gui.rs 921-940): the
CSV parse outcome (produced by the external csv crate) is matched; on `Ok`
the reference curve is replaced wholesale and the result label set to
success, on `Err` only the result label is set and the stored reference is
left untouched. -/
def importReference (parsed : Except String (List SpectrumPoint))
    (st : ImportState) : ImportState :=
  match parsed with
  | .ok r => ⟨some r, some (.ok ())⟩
  | .error e => ⟨st.reference, some (.error e)⟩

/-- Strict two-sided wavelength neighborhood used by the deduplication pass
(gui.rs 344-345): `q` lies strictly within `± window / 2` of `p`. -/
def inUniqueWindow (p q : SpectrumPoint) (window : ℚ) : Prop :=
  p.wavelength - window / 2 < q.wavelength ∧
    q.wavelength < p.wavelength + window / 2

/-! ## Theorems -/

/-- Running a biquad from the fresh (all-zero) state over an all-zero input
leaves both the outputs and the state at zero. -/
theorem runList_replicate_zero (c : Coefficients) (m : ℕ) :
    runList (DirectForm2Transposed.new c) (List.replicate m 0) =
      (List.replicate m 0, DirectForm2Transposed.new c) := by
  induction m with
  | zero => simp [runList]
  | succ k ih =>
    have hrun : (DirectForm2Transposed.new c).run 0 =
        (0, DirectForm2Transposed.new c) := by
      simp [DirectForm2Transposed.run, DirectForm2Transposed.new]
    simp only [List.replicate_succ, runList, hrun, ih]

/-- C3 fails on the code: the two-pass filter starts both passes from the
zero filter state, so its transient alters a nonzero constant sequence.  At
the unit-DC-gain stable lowpass biquad with `b0 = b1 = b2 = 1/4`,
`a1 = -1/4`, `a2 = 0` (the coefficients of the Butterworth design itself are
transcendental, this rational instance satisfies its defining unit-DC-gain
identity `b0 + b1 + b2 = 1 + a1 + a2`), the constant sequence `[1]` comes
out as `[3/8]`. -/
theorem claim_C3_counterexample :
    filterChannel ⟨1/4, 1/4, 1/4, -1/4, 0⟩ (List.replicate 1 1) ≠
      List.replicate 1 1 := by
  simp [filterChannel, runList, DirectForm2Transposed.run,
    DirectForm2Transposed.new]
  norm_num

/-- C3 (amended): zero-phase filtering preserves the constant-zero sequence
exactly, for every coefficient set and length; a nonzero constant sequence
is in general altered by the startup transient of the two passes, both of
which begin in the zero filter state. -/
theorem claim_C3 (c : Coefficients) (m : ℕ) :
    filterChannel c (List.replicate m 0) = List.replicate m 0 := by
  simp [filterChannel, runList_replicate_zero, List.reverse_replicate]

/-- C2 fails on the code: the reverse pass is NOT freshly initialized — it
continues with the state the forward pass left behind.  On the row `[1, 0]`
with the unit-DC-gain biquad `b0 = b1 = b2 = 1/4`, `a1 = -1/4`, `a2 = 0`,
the source loop produces `[31/128, 13/32]` while the freshly-initialized
reverse pass of the spec produces `[41/256, 5/64]`. -/
theorem claim_C2_counterexample :
    filterChannel ⟨1/4, 1/4, 1/4, -1/4, 0⟩ [1, 0] ≠
      filterChannelFresh ⟨1/4, 1/4, 1/4, -1/4, 0⟩ [1, 0] := by
  simp [filterChannel, filterChannelFresh, runList, DirectForm2Transposed.run,
    DirectForm2Transposed.new]
  norm_num

/-- C2 (amended): when filtering is enabled each of the 4 rows is filtered
independently by a fresh biquad run forward across the row; the reverse pass
is then run by the same biquad carrying the state left by the forward pass,
not freshly initialized, and its output (reversed back) is the final row.
The code coincides with the freshly-initialized variant of the spec whenever
the forward pass happens to end in the fresh state. -/
theorem claim_C2 (c : Coefficients) (s : Spectrum) (xs : List ℚ)
    (h : (runList (DirectForm2Transposed.new c) xs).2 =
      DirectForm2Transposed.new c) :
    Spectrum.applyFilter c s =
      ⟨filterChannel c s.r, filterChannel c s.g, filterChannel c s.b,
        filterChannel c s.sum⟩
    ∧ filterChannel c xs = filterChannelFresh c xs := by
  refine ⟨rfl, ?_⟩
  simp only [filterChannel, filterChannelFresh, h]

/-- Witness for C2 (amended) at a concrete spectrum and the row `[0]`, whose
forward pass ends in the fresh state. -/
theorem claim_C2_witness :
    Spectrum.applyFilter ⟨1/4, 1/4, 1/4, -1/4, 0⟩ ⟨[1], [1], [1], [3]⟩ =
      ⟨filterChannel ⟨1/4, 1/4, 1/4, -1/4, 0⟩ [1],
        filterChannel ⟨1/4, 1/4, 1/4, -1/4, 0⟩ [1],
        filterChannel ⟨1/4, 1/4, 1/4, -1/4, 0⟩ [1],
        filterChannel ⟨1/4, 1/4, 1/4, -1/4, 0⟩ [3]⟩
    ∧ filterChannel ⟨1/4, 1/4, 1/4, -1/4, 0⟩ [0] =
      filterChannelFresh ⟨1/4, 1/4, 1/4, -1/4, 0⟩ [0] :=
  claim_C2 ⟨1/4, 1/4, 1/4, -1/4, 0⟩ ⟨[1], [1], [1], [3]⟩ [0]
    (by simp [runList, DirectForm2Transposed.run, DirectForm2Transposed.new])

/-- C6: pushing a frame whose column count differs from the frames already
buffered clears the buffer and the zero reference; after the push the buffer
holds exactly the one (possibly linearized) new frame. -/
theorem claim_C6 (lin : Linearize) (bufferSize : ℕ) (st : GuiState)
    (frame s : SpectrumRgb) (rest : List SpectrumRgb)
    (hbuf : st.spectrum_buffer = s :: rest)
    (hdim : s.ncols ≠ frame.ncols)
    (hsize : 1 ≤ bufferSize) :
    (pushFrame lin bufferSize st frame).spectrum_buffer =
      [linearizeFrame lin frame]
    ∧ (pushFrame lin bufferSize st frame).zero_reference = none := by
  have htake : List.take bufferSize [linearizeFrame lin frame] =
      [linearizeFrame lin frame] :=
    List.take_of_length_le (by simpa using hsize)
  simp [pushFrame, hbuf, hdim, htake]

/-- Witness for C6: a one-column frame sits in the buffer together with a
zero reference, a two-column frame arrives with buffer size 3. -/
theorem claim_C6_witness :
    (pushFrame .off 3 ⟨[⟨[1], [1], [1]⟩], some ⟨[1], [1], [1], [3]⟩⟩
        ⟨[1, 2], [3, 4], [5, 6]⟩).spectrum_buffer =
      [linearizeFrame .off ⟨[1, 2], [3, 4], [5, 6]⟩]
    ∧ (pushFrame .off 3 ⟨[⟨[1], [1], [1]⟩], some ⟨[1], [1], [1], [3]⟩⟩
        ⟨[1, 2], [3, 4], [5, 6]⟩).zero_reference = none :=
  claim_C6 .off 3 ⟨[⟨[1], [1], [1]⟩], some ⟨[1], [1], [1], [3]⟩⟩
    ⟨[1, 2], [3, 4], [5, 6]⟩ ⟨[1], [1], [1]⟩ [] rfl
    (by simp [SpectrumRgb.ncols]) (by norm_num)

/-- C9: when the averaging buffer is empty no bin-count comparison happens:
the zero reference survives the push unchanged — whatever its length — and
the buffer afterwards holds the pushed frame (truncated to the buffer
size). -/
theorem claim_C9 (lin : Linearize) (bufferSize : ℕ) (st : GuiState)
    (frame : SpectrumRgb) (hbuf : st.spectrum_buffer = []) :
    (pushFrame lin bufferSize st frame).zero_reference = st.zero_reference
    ∧ (pushFrame lin bufferSize st frame).spectrum_buffer =
      [linearizeFrame lin frame].take bufferSize := by
  simp [pushFrame, hbuf]

/-- Witness for C9: the buffer is empty, the stored zero reference has 3
bins, the incoming frame has 1 bin — the zero reference is kept anyway. -/
theorem claim_C9_witness :
    (pushFrame .off 5 ⟨[], some ⟨[1, 2, 3], [1, 2, 3], [1, 2, 3], [3, 6, 9]⟩⟩
        ⟨[7], [8], [9]⟩).zero_reference =
      some ⟨[1, 2, 3], [1, 2, 3], [1, 2, 3], [3, 6, 9]⟩
    ∧ (pushFrame .off 5 ⟨[], some ⟨[1, 2, 3], [1, 2, 3], [1, 2, 3], [3, 6, 9]⟩⟩
        ⟨[7], [8], [9]⟩).spectrum_buffer =
      [linearizeFrame .off ⟨[7], [8], [9]⟩].take 5 :=
  claim_C9 .off 5 ⟨[], some ⟨[1, 2, 3], [1, 2, 3], [1, 2, 3], [3, 6, 9]⟩⟩
    ⟨[7], [8], [9]⟩ rfl

/-- C10: when the Sum row is shorter than the window `2*w+1`, the slide
produces no window at all, so the detector returns the empty feature list
(rather than failing). -/
theorem claim_C10 (cal : SpectrumCalibration) (sumRow : List ℚ) (w : ℕ)
    (window : ℚ) (peaks : Bool) (hshort : sumRow.length < 2 * w + 1) :
    spectrumToPeaksDips cal sumRow w window peaks = [] := by
  have h0 : sumRow.length + 1 - (2 * w + 1) = 0 := by omega
  simp [spectrumToPeaksDips, findCandidates, uniqueFilter, h0]

/-- Witness for C10: a 2-bin Sum row against a half-width of 2 (window size
5) yields no features. -/
theorem claim_C10_witness :
    spectrumToPeaksDips ⟨⟨0, 400⟩, ⟨1, 700⟩, 1, 1, 1, .off, none⟩ [1, 2] 2 10
      true = [] :=
  claim_C10 ⟨⟨0, 400⟩, ⟨1, 700⟩, 1, 1, 1, .off, none⟩ [1, 2] 2 10 true
    (by norm_num)

/-- C8: a failing import leaves the previously stored reference curve
untouched (only the result label changes), and a successful import replaces
the curve wholesale. -/
theorem claim_C8 (st : ImportState) (e : String) (r : List SpectrumPoint) :
    (importReference (Except.error e) st).reference = st.reference
    ∧ (importReference (Except.error e) st).last_error =
      some (Except.error e)
    ∧ (importReference (Except.ok r) st).reference = some r :=
  ⟨rfl, rfl, rfl⟩

/-- C1 is right about the intent and wrong about the code: the reference
lookup does surface a domain miss as absence, but the calibration action
unwraps it, so the miss crashes instead of being handled.  With anchors
mapping bin 0 to 400 nm and bin 1 to 700 nm, a reference curve covering only
500 to 600 nm, and the Sum row `[10, 20]`, the computation hits
`Option::unwrap` on `None` and panics. -/
theorem claim_C1_crash :
    setReferenceAsCalibration ⟨⟨0, 400⟩, ⟨1, 700⟩, 1, 1, 1, .off, none⟩
      [⟨500, 1⟩, ⟨600, 2⟩] [10, 20] = PanicResult.crashed := by
  norm_num [setReferenceAsCalibration, getValueAtWavelength,
    SpectrumCalibration.get_wavelength_from_index, List.mapIdx_cons,
    collectUnwrap]

/-- Dropping shifts `getD` indices. -/
theorem getD_drop (xs : List ℚ) (i k : ℕ) :
    (xs.drop i).getD k 0 = xs.getD (i + k) 0 := by
  simp [List.getD_eq_getElem?_getD, List.getElem?_drop]

/-- Taking preserves `getD` below the cut. -/
theorem getD_take_lt (xs : List ℚ) (n k : ℕ) (h : k < n) :
    (xs.take n).getD k 0 = xs.getD k 0 := by
  simp [List.getD_eq_getElem?_getD, List.getElem?_take, h]

/-- Index form of `List.all`. -/
theorem all_iff_getD (l : List ℚ) (p : ℚ → Bool) :
    l.all p = true ↔ ∀ j, j < l.length → p (l.getD j 0) = true := by
  rw [List.all_eq_true]
  constructor
  · intro h j hj
    rw [List.getD_eq_getElem _ _ hj]
    exact h _ (List.getElem_mem hj)
  · intro h x hx
    obtain ⟨j, hj, rfl⟩ := List.mem_iff_getElem.mp hx
    rw [← List.getD_eq_getElem _ 0 hj]
    exact h j hj

/-- The window predicate holds at start `i` iff the center sample `xs[i+w]`
strictly dominates every other sample of the in-bounds window of size
`2*w+1`. -/
theorem isCandidate_iff (xs : List ℚ) (w : ℕ) (peaks : Bool) (i : ℕ)
    (hb : i + 2 * w < xs.length) :
    isCandidate xs w peaks i = true ↔
      ∀ j, j ≤ 2 * w → j ≠ w →
        (if peaks then xs.getD (i + j) 0 < xs.getD (i + w) 0
          else xs.getD (i + w) 0 < xs.getD (i + j) 0) := by
  unfold isCandidate
  have hwin : ∀ k, k < 2 * w + 1 →
      ((xs.drop i).take (2 * w + 1)).getD k 0 = xs.getD (i + k) 0 := by
    intro k hk
    rw [getD_take_lt _ _ _ hk, getD_drop]
  have hwl : ((xs.drop i).take (2 * w + 1)).length = 2 * w + 1 := by
    rw [List.length_take, List.length_drop]
    omega
  have hcenter : ((xs.drop i).take (2 * w + 1)).getD w 0 = xs.getD (i + w) 0 :=
    hwin w (by omega)
  rw [List.all_append, Bool.and_eq_true, all_iff_getD, all_iff_getD]
  rw [List.length_take, hwl, List.length_drop, hwl]
  constructor
  · rintro ⟨hlow, hhigh⟩ j hj hne
    rcases Nat.lt_or_ge j w with hjw | hjw
    · have := hlow j (by omega)
      rw [getD_take_lt _ _ _ hjw, getD_take_lt _ _ _ (by omega : j < 2 * w + 1),
        getD_drop, hcenter] at this
      cases peaks <;> simpa using this
    · have hjw2 : w < j := by omega
      have := hhigh (j - (w + 1)) (by omega)
      rw [getD_drop, hwin (w + 1 + (j - (w + 1))) (by omega), hcenter] at this
      have harith : i + (w + 1 + (j - (w + 1))) = i + j := by omega
      rw [harith] at this
      cases peaks <;> simpa using this
  · intro h
    constructor
    · intro j hj
      have hj3 : j < w := by omega
      have := h j (by omega) (by omega)
      rw [getD_take_lt _ _ _ hj3, getD_take_lt _ _ _ (by omega : j < 2 * w + 1),
        getD_drop, hcenter]
      cases peaks <;> simpa using this
    · intro j hj
      have := h (w + 1 + j) (by omega) (by omega)
      rw [getD_drop, hwin (w + 1 + j) (by omega), hcenter]
      cases peaks <;> simpa using this

/-- C5: with half-width `w ≥ 1` and a fully-in-bounds window starting at
`i` (center `i + w`), the start survives the scan iff the center sample is
strictly greater than every other window sample (peak mode) respectively
strictly less (dip mode) — an equal neighbor disqualifies it; and the
emitted candidate carries the wavelength of the center index and the center
value. -/
theorem claim_C5 (cal : SpectrumCalibration) (xs : List ℚ) (w i : ℕ)
    (hw : 1 ≤ w) (hb : i + 2 * w < xs.length) :
    (i ∈ (List.range (xs.length + 1 - (2 * w + 1))).filter (isCandidate xs w true)
        ↔ ∀ j, j ≤ 2 * w → j ≠ w → xs.getD (i + j) 0 < xs.getD (i + w) 0)
    ∧ (i ∈ (List.range (xs.length + 1 - (2 * w + 1))).filter (isCandidate xs w false)
        ↔ ∀ j, j ≤ 2 * w → j ≠ w → xs.getD (i + w) 0 < xs.getD (i + j) 0)
    ∧ ∀ pk, findCandidates cal xs w pk =
        ((List.range (xs.length + 1 - (2 * w + 1))).filter (isCandidate xs w pk)).map
          (fun k => ⟨cal.get_wavelength_from_index (k + w), xs.getD (k + w) 0⟩) := by
  have hmem : ∀ pk : Bool,
      (i ∈ (List.range (xs.length + 1 - (2 * w + 1))).filter (isCandidate xs w pk)
        ↔ isCandidate xs w pk i = true) := by
    intro pk
    rw [List.mem_filter, List.mem_range]
    constructor
    · exact fun h => h.2
    · exact fun h => ⟨by omega, h⟩
  refine ⟨?_, ?_, ?_⟩
  · rw [hmem true, isCandidate_iff xs w true i hb]
    simp
  · rw [hmem false, isCandidate_iff xs w false i hb]
    simp
  · intro pk
    unfold findCandidates
    apply List.map_congr_left
    intro k hk
    rw [List.mem_filter, List.mem_range] at hk
    have hkb : k + 2 * w < xs.length := by omega
    have hc : ((xs.drop k).take (2 * w + 1)).getD w 0 = xs.getD (k + w) 0 := by
      rw [getD_take_lt _ _ _ (by omega), getD_drop]
    rw [hc]

/-- Witness for C5: in the row `[1, 5, 2]` with half-width 1 the start 0 is
marked (the center `5` strictly dominates `1` and `2`). -/
theorem claim_C5_witness :
    0 ∈ (List.range ((([1, 5, 2] : List ℚ)).length + 1 - (2 * 1 + 1))).filter
      (isCandidate [1, 5, 2] 1 true) := by
  have h := (claim_C5 ⟨⟨0, 400⟩, ⟨1, 700⟩, 1, 1, 1, .off, none⟩ [1, 5, 2] 1 0
    (by norm_num) (by norm_num)).1
  rw [h]
  intro j hj hne
  interval_cases j
  · norm_num
  · exact absurd rfl hne
  · norm_num

/-- Left fold of `max` lands on one of the folded elements. -/
theorem foldl_max_mem (v : ℚ) (vs : List ℚ) : vs.foldl max v ∈ v :: vs := by
  induction vs generalizing v with
  | nil => simp
  | cons x xs ih =>
    rw [List.foldl_cons]
    rcases max_choice v x with hc | hc
    · rw [hc]
      have h := ih v
      simp only [List.mem_cons] at h ⊢
      tauto
    · rw [hc]
      have h := ih x
      simp only [List.mem_cons] at h ⊢
      tauto

/-- Left fold of `max` bounds every folded element from above. -/
theorem le_foldl_max (v : ℚ) (vs : List ℚ) :
    ∀ u ∈ v :: vs, u ≤ vs.foldl max v := by
  induction vs generalizing v with
  | nil =>
    intro u hu
    simp only [List.mem_cons, List.not_mem_nil, or_false] at hu
    simp [hu, List.foldl_nil]
  | cons x xs ih =>
    intro u hu
    rw [List.foldl_cons]
    simp only [List.mem_cons] at hu
    rcases hu with rfl | rfl | hu
    · exact le_trans (le_max_left u x) (ih (max u x) _ (by simp))
    · exact le_trans (le_max_right v u) (ih (max v u) _ (by simp))
    · exact ih (max v x) u (by simp [hu])

/-- Characterization of the fold of `max` hitting a member value. -/
theorem foldl_max_eq_iff (v : ℚ) (vs : List ℚ) (a : ℚ) (ha : a ∈ v :: vs) :
    vs.foldl max v = a ↔ ∀ u ∈ v :: vs, u ≤ a := by
  constructor
  · intro h u hu
    rw [← h]
    exact le_foldl_max v vs u hu
  · intro h
    exact le_antisymm (h _ (foldl_max_mem v vs)) (le_foldl_max v vs a ha)

/-- Left fold of `min` lands on one of the folded elements. -/
theorem foldl_min_mem (v : ℚ) (vs : List ℚ) : vs.foldl min v ∈ v :: vs := by
  induction vs generalizing v with
  | nil => simp
  | cons x xs ih =>
    rw [List.foldl_cons]
    rcases min_choice v x with hc | hc
    · rw [hc]
      have h := ih v
      simp only [List.mem_cons] at h ⊢
      tauto
    · rw [hc]
      have h := ih x
      simp only [List.mem_cons] at h ⊢
      tauto

/-- Left fold of `min` bounds every folded element from below. -/
theorem foldl_min_le (v : ℚ) (vs : List ℚ) :
    ∀ u ∈ v :: vs, vs.foldl min v ≤ u := by
  induction vs generalizing v with
  | nil =>
    intro u hu
    simp only [List.mem_cons, List.not_mem_nil, or_false] at hu
    simp [hu, List.foldl_nil]
  | cons x xs ih =>
    intro u hu
    rw [List.foldl_cons]
    simp only [List.mem_cons] at hu
    rcases hu with rfl | rfl | hu
    · exact le_trans (ih (min u x) _ (by simp)) (min_le_left u x)
    · exact le_trans (ih (min v u) _ (by simp)) (min_le_right v u)
    · exact ih (min v x) u (by simp [hu])

/-- Characterization of the fold of `min` hitting a member value. -/
theorem foldl_min_eq_iff (v : ℚ) (vs : List ℚ) (a : ℚ) (ha : a ∈ v :: vs) :
    vs.foldl min v = a ↔ ∀ u ∈ v :: vs, a ≤ u := by
  constructor
  · intro h u hu
    rw [← h]
    exact foldl_min_le v vs u hu
  · intro h
    exact le_antisymm (foldl_min_le v vs a ha) (h _ (foldl_min_mem v vs))

/-- Peak-mode deduplication keeps a candidate iff it is a maximum by value
over its strict wavelength neighborhood (itself included, ensured by a
positive window). -/
theorem uniqueFilter_mem_max (pts : List SpectrumPoint) (window : ℚ)
    (p : SpectrumPoint) (hw : 0 < window) :
    p ∈ uniqueFilter pts window true ↔
      p ∈ pts ∧ ∀ q ∈ pts, inUniqueWindow p q window → q.value ≤ p.value := by
  rw [uniqueFilter, List.mem_filter, decide_eq_true_eq]
  set nb := pts.filter (fun sp =>
    decide (p.wavelength - window / 2 < sp.wavelength) &&
      decide (sp.wavelength < p.wavelength + window / 2)) with hnb
  have hnbspec : ∀ q, q ∈ nb ↔ q ∈ pts ∧ inUniqueWindow p q window := by
    intro q
    rw [hnb, List.mem_filter, Bool.and_eq_true, decide_eq_true_eq,
      decide_eq_true_eq]
    exact Iff.rfl
  have key : p ∈ pts →
      ((reduceExtremum true (nb.map SpectrumPoint.value) = some p.value) ↔
        ∀ q ∈ pts, inUniqueWindow p q window → q.value ≤ p.value) := by
    intro hp
    have hself : p ∈ nb :=
      (hnbspec p).mpr ⟨hp, by constructor <;> linarith⟩
    have hvmem : p.value ∈ nb.map SpectrumPoint.value :=
      List.mem_map_of_mem _ hself
    have hne : nb.map SpectrumPoint.value ≠ [] := by
      intro hnil
      rw [hnil] at hvmem
      simp at hvmem
    obtain ⟨v, vs, hvals⟩ := List.exists_cons_of_ne_nil hne
    rw [hvals] at hvmem ⊢
    rw [reduceExtremum]
    simp only [if_true, Bool.ite_eq_true_distrib, Option.some.injEq, ite_true]
    rw [foldl_max_eq_iff v vs p.value hvmem]
    constructor
    · intro h q hq hqw
      apply h
      rw [← hvals]
      exact List.mem_map_of_mem _ ((hnbspec q).mpr ⟨hq, hqw⟩)
    · intro h u hu
      rw [← hvals] at hu
      obtain ⟨q, hq, rfl⟩ := List.mem_map.mp hu
      obtain ⟨hq1, hq2⟩ := (hnbspec q).mp hq
      exact h q hq1 hq2
  constructor
  · rintro ⟨hp, hcond⟩
    exact ⟨hp, (key hp).mp hcond⟩
  · rintro ⟨hp, hmax⟩
    exact ⟨hp, (key hp).mpr hmax⟩

/-- Dip-mode deduplication keeps a candidate iff it is a minimum by value
over its strict wavelength neighborhood (itself included, ensured by a
positive window). -/
theorem uniqueFilter_mem_min (pts : List SpectrumPoint) (window : ℚ)
    (p : SpectrumPoint) (hw : 0 < window) :
    p ∈ uniqueFilter pts window false ↔
      p ∈ pts ∧ ∀ q ∈ pts, inUniqueWindow p q window → p.value ≤ q.value := by
  rw [uniqueFilter, List.mem_filter, decide_eq_true_eq]
  set nb := pts.filter (fun sp =>
    decide (p.wavelength - window / 2 < sp.wavelength) &&
      decide (sp.wavelength < p.wavelength + window / 2)) with hnb
  have hnbspec : ∀ q, q ∈ nb ↔ q ∈ pts ∧ inUniqueWindow p q window := by
    intro q
    rw [hnb, List.mem_filter, Bool.and_eq_true, decide_eq_true_eq,
      decide_eq_true_eq]
    exact Iff.rfl
  have key : p ∈ pts →
      ((reduceExtremum false (nb.map SpectrumPoint.value) = some p.value) ↔
        ∀ q ∈ pts, inUniqueWindow p q window → p.value ≤ q.value) := by
    intro hp
    have hself : p ∈ nb :=
      (hnbspec p).mpr ⟨hp, by constructor <;> linarith⟩
    have hvmem : p.value ∈ nb.map SpectrumPoint.value :=
      List.mem_map_of_mem _ hself
    have hne : nb.map SpectrumPoint.value ≠ [] := by
      intro hnil
      rw [hnil] at hvmem
      simp at hvmem
    obtain ⟨v, vs, hvals⟩ := List.exists_cons_of_ne_nil hne
    rw [hvals] at hvmem ⊢
    rw [reduceExtremum]
    simp only [Bool.false_eq_true, if_false, Option.some.injEq, ite_false]
    rw [foldl_min_eq_iff v vs p.value hvmem]
    constructor
    · intro h q hq hqw
      apply h
      rw [← hvals]
      exact List.mem_map_of_mem _ ((hnbspec q).mpr ⟨hq, hqw⟩)
    · intro h u hu
      rw [← hvals] at hu
      obtain ⟨q, hq, rfl⟩ := List.mem_map.mp hu
      obtain ⟨hq1, hq2⟩ := (hnbspec q).mp hq
      exact h q hq1 hq2
  constructor
  · rintro ⟨hp, hcond⟩
    exact ⟨hp, (key hp).mp hcond⟩
  · rintro ⟨hp, hmin⟩
    exact ⟨hp, (key hp).mpr hmin⟩

/-- C4: for a positive unique window, a candidate survives deduplication iff
its value equals the maximum (peak mode) respectively minimum (dip mode)
value among all candidates whose wavelength lies strictly within `± D/2` of
its own, itself included; two candidates of exactly equal value lying in the
window of one another both survive when each tops its own neighborhood, and a
strictly lower-value candidate lying in the window of a higher one is
removed (peak mode). -/
theorem claim_C4 (pts : List SpectrumPoint) (window : ℚ) (p q : SpectrumPoint)
    (hw : 0 < window) :
    (p ∈ uniqueFilter pts window true ↔
      p ∈ pts ∧ ∀ s ∈ pts, inUniqueWindow p s window → s.value ≤ p.value)
    ∧ (p ∈ uniqueFilter pts window false ↔
      p ∈ pts ∧ ∀ s ∈ pts, inUniqueWindow p s window → p.value ≤ s.value)
    ∧ (p ∈ pts → q ∈ pts → p.value = q.value → inUniqueWindow p q window →
      inUniqueWindow q p window →
      (∀ s ∈ pts, inUniqueWindow p s window → s.value ≤ p.value) →
      (∀ s ∈ pts, inUniqueWindow q s window → s.value ≤ q.value) →
      p ∈ uniqueFilter pts window true ∧ q ∈ uniqueFilter pts window true)
    ∧ (p ∈ pts → q ∈ pts → q.value < p.value → inUniqueWindow q p window →
      q ∉ uniqueFilter pts window true) := by
  refine ⟨uniqueFilter_mem_max pts window p hw,
    uniqueFilter_mem_min pts window p hw, ?_, ?_⟩
  · intro hp hq _ _ _ hmaxp hmaxq
    exact ⟨(uniqueFilter_mem_max pts window p hw).mpr ⟨hp, hmaxp⟩,
      (uniqueFilter_mem_max pts window q hw).mpr ⟨hq, hmaxq⟩⟩
  · intro hp hq hlt hwin hmem
    obtain ⟨-, hmax⟩ := (uniqueFilter_mem_max pts window q hw).mp hmem
    exact absurd (hmax p hp hwin) (by linarith)

/-- Witness for C4: among candidates at 400 nm and 401 nm of equal value 5
and one at 402 nm of value 3, window 10, the tied maximum survives and the
strictly lower one is removed. -/
theorem claim_C4_witness :
    ((⟨400, 5⟩ : SpectrumPoint) ∈
      uniqueFilter [⟨400, 5⟩, ⟨401, 5⟩, ⟨402, 3⟩] 10 true)
    ∧ ((⟨402, 3⟩ : SpectrumPoint) ∉
      uniqueFilter [⟨400, 5⟩, ⟨401, 5⟩, ⟨402, 3⟩] 10 true) := by
  constructor
  · refine ((claim_C4 [⟨400, 5⟩, ⟨401, 5⟩, ⟨402, 3⟩] 10 ⟨400, 5⟩ ⟨401, 5⟩
      (by norm_num)).1).mpr ⟨by simp, ?_⟩
    intro s hs hwin
    simp only [List.mem_cons, List.not_mem_nil, or_false] at hs
    rcases hs with rfl | rfl | rfl <;> norm_num
  · exact (claim_C4 [⟨400, 5⟩, ⟨401, 5⟩, ⟨402, 3⟩] 10 ⟨400, 5⟩ ⟨402, 3⟩
      (by norm_num)).2.2.2 (by simp) (by simp) (by norm_num)
      (by constructor <;> norm_num)

/-- Length of elementwise row addition. -/
theorem zipWith_add_length (a b : List ℚ) :
    (List.zipWith (· + ·) a b).length = min a.length b.length :=
  List.length_zipWith _ a b

/-- Folding row additions over same-length rows keeps the accumulator
length. -/
theorem foldl_add_rows_length (rows : List (List ℚ)) (acc : List ℚ)
    (h : ∀ r ∈ rows, r.length = acc.length) :
    (rows.foldl (fun a b => List.zipWith (· + ·) a b) acc).length
      = acc.length := by
  induction rows generalizing acc with
  | nil => rfl
  | cons x xs ih =>
    rw [List.foldl_cons]
    have hx : x.length = acc.length := h x (by simp)
    have hlen : (List.zipWith (· + ·) acc x).length = acc.length := by
      rw [zipWith_add_length, hx]
      omega
    rw [ih (List.zipWith (· + ·) acc x)
      (fun r hr => by rw [hlen]; exact h r (by simp [hr])), hlen]

/-- Pointwise value of a fold of row additions: the accumulator entry plus
the sum of the row entries at that index. -/
theorem foldl_add_rows_getD (rows : List (List ℚ)) (acc : List ℚ) (i : ℕ)
    (hi : i < acc.length) (h : ∀ r ∈ rows, r.length = acc.length) :
    (rows.foldl (fun a b => List.zipWith (· + ·) a b) acc).getD i 0
      = acc.getD i 0 + (rows.map (fun r => r.getD i 0)).sum := by
  induction rows generalizing acc with
  | nil => simp
  | cons x xs ih =>
    rw [List.foldl_cons, List.map_cons, List.sum_cons]
    have hx : x.length = acc.length := h x (by simp)
    have hlen : (List.zipWith (· + ·) acc x).length = acc.length := by
      rw [zipWith_add_length, hx]
      omega
    have hstep : (List.zipWith (· + ·) acc x).getD i 0
        = acc.getD i 0 + x.getD i 0 := by
      rw [List.getD_eq_getElem _ _
          (by omega : i < (List.zipWith (· + ·) acc x).length),
        List.getElem_zipWith, ← List.getD_eq_getElem acc 0 hi,
        ← List.getD_eq_getElem x 0 (by omega : i < x.length)]
    rw [ih (List.zipWith (· + ·) acc x) (by omega)
      (fun r hr => by rw [hlen]; exact h r (by simp [hr])), hstep]
    ring

/-- Scalar division maps through `getD` below the length. -/
theorem getD_map_div (l : List ℚ) (d : ℚ) (i : ℕ) (hi : i < l.length) :
    (l.map (· / d)).getD i 0 = l.getD i 0 / d := by
  rw [List.getD_eq_getElem _ _ (by simpa using hi),
    List.getD_eq_getElem _ _ hi, List.getElem_map]

/-- Rows agreeing in length and at every `getD` index are equal. -/
theorem row_ext (a b : List ℚ) (hlen : a.length = b.length)
    (h : ∀ i, i < a.length → a.getD i 0 = b.getD i 0) : a = b := by
  apply List.ext_getElem hlen
  intro i h1 h2
  have hh := h i h1
  rwa [List.getD_eq_getElem _ _ h1, List.getD_eq_getElem _ _ h2] at hh

/-- Projecting a fold of frame additions gives the fold of the projected
rows, for any componentwise projection. -/
theorem foldl_frames_proj (buf : List SpectrumRgb) (init : SpectrumRgb)
    (proj : SpectrumRgb → List ℚ)
    (hproj : ∀ a b, proj (SpectrumRgb.add a b) =
      List.zipWith (· + ·) (proj a) (proj b)) :
    proj (buf.foldl SpectrumRgb.add init) =
      (buf.map proj).foldl (fun a b => List.zipWith (· + ·) a b) (proj init) := by
  induction buf generalizing init with
  | nil => rfl
  | cons x xs ih =>
    rw [List.foldl_cons, List.map_cons, List.foldl_cons, ih (init.add x), hproj]

/-- Pointwise value of the buffer mean: the sum of the frame entries at a
bin divided by the CURRENT buffer length. -/
theorem combinedBuffer_getD (buf : List SpectrumRgb) (n i : ℕ) (hi : i < n)
    (proj : SpectrumRgb → List ℚ)
    (hadd : ∀ a b, proj (SpectrumRgb.add a b) =
      List.zipWith (· + ·) (proj a) (proj b))
    (hdiv : ∀ x d, proj (SpectrumRgb.divScalar x d) = (proj x).map (· / d))
    (hinit : ∀ m x, proj (SpectrumRgb.fromElement m x) = List.replicate m x)
    (hrows : ∀ t ∈ buf, (proj t).length = n) :
    (proj (combinedBuffer buf n)).getD i 0
      = (buf.map (fun t => (proj t).getD i 0)).sum / (buf.length : ℚ) := by
  unfold combinedBuffer
  rw [hdiv, foldl_frames_proj buf _ proj hadd, hinit]
  have hrows2 : ∀ r ∈ buf.map proj,
      r.length = (List.replicate n (0:ℚ)).length := by
    intro r hr
    obtain ⟨t, ht, rfl⟩ := List.mem_map.mp hr
    simp [hrows t ht]
  have hlen : ((buf.map proj).foldl (fun a b => List.zipWith (· + ·) a b)
      (List.replicate n (0:ℚ))).length = n := by
    rw [foldl_add_rows_length _ _ hrows2]
    simp
  rw [getD_map_div _ _ i (by omega),
    foldl_add_rows_getD _ _ i (by simpa using hi) hrows2]
  have hezero : (List.replicate n (0:ℚ)).getD i 0 = 0 := by
    simp [List.getD_eq_getElem?_getD]
  rw [hezero, zero_add, List.map_map]
  rfl

/-- Mean of a buffer of identical frames returns the frame row, for any
componentwise projection. -/
theorem combinedBuffer_replicate_proj (k n : ℕ) (s : SpectrumRgb)
    (proj : SpectrumRgb → List ℚ)
    (hadd : ∀ a b, proj (SpectrumRgb.add a b) =
      List.zipWith (· + ·) (proj a) (proj b))
    (hdiv : ∀ x d, proj (SpectrumRgb.divScalar x d) = (proj x).map (· / d))
    (hinit : ∀ m x, proj (SpectrumRgb.fromElement m x) = List.replicate m x)
    (hs : (proj s).length = n) (hk : 1 ≤ k) :
    proj (combinedBuffer (List.replicate k s) n) = proj s := by
  have hrows : ∀ t ∈ List.replicate k s, (proj t).length = n := by
    intro t ht
    rw [List.eq_of_mem_replicate ht]
    exact hs
  have hrows2 : ∀ r ∈ (List.replicate k s).map proj,
      r.length = (List.replicate n (0:ℚ)).length := by
    intro r hr
    obtain ⟨t, ht, rfl⟩ := List.mem_map.mp hr
    simp [hrows t ht]
  have hlen : (proj (combinedBuffer (List.replicate k s) n)).length = n := by
    unfold combinedBuffer
    rw [hdiv, foldl_frames_proj _ _ proj hadd, hinit, List.length_map,
      foldl_add_rows_length _ _ hrows2]
    simp
  apply row_ext _ _ (by rw [hlen, hs])
  intro i hilen
  have hi : i < n := by omega
  rw [combinedBuffer_getD _ n i hi proj hadd hdiv hinit hrows]
  rw [List.map_replicate, List.sum_replicate, List.length_replicate,
    nsmul_eq_mul]
  have hk0 : (k : ℚ) ≠ 0 := Nat.cast_ne_zero.mpr (by omega)
  field_simp

/-- C7: the buffer mean divides the elementwise sum of the buffered frames
by the current buffer length (the configured capacity appears nowhere), and
the mean over `k ≥ 1` identical frames is exactly that frame. -/
theorem claim_C7 (buf : List SpectrumRgb) (n k i : ℕ) (s : SpectrumRgb)
    (hbuf : ∀ t ∈ buf, t.r.length = n ∧ t.g.length = n ∧ t.b.length = n)
    (hi : i < n)
    (hs : s.r.length = n ∧ s.g.length = n ∧ s.b.length = n)
    (hk : 1 ≤ k) :
    ((combinedBuffer buf n).r.getD i 0
        = (buf.map (fun t => t.r.getD i 0)).sum / (buf.length : ℚ)
      ∧ (combinedBuffer buf n).g.getD i 0
        = (buf.map (fun t => t.g.getD i 0)).sum / (buf.length : ℚ)
      ∧ (combinedBuffer buf n).b.getD i 0
        = (buf.map (fun t => t.b.getD i 0)).sum / (buf.length : ℚ))
    ∧ combinedBuffer (List.replicate k s) n = s := by
  constructor
  · refine ⟨?_, ?_, ?_⟩
    · exact combinedBuffer_getD buf n i hi SpectrumRgb.r (fun a b => rfl)
        (fun x d => rfl) (fun m x => rfl) (fun t ht => (hbuf t ht).1)
    · exact combinedBuffer_getD buf n i hi SpectrumRgb.g (fun a b => rfl)
        (fun x d => rfl) (fun m x => rfl) (fun t ht => (hbuf t ht).2.1)
    · exact combinedBuffer_getD buf n i hi SpectrumRgb.b (fun a b => rfl)
        (fun x d => rfl) (fun m x => rfl) (fun t ht => (hbuf t ht).2.2)
  · have hr := combinedBuffer_replicate_proj k n s SpectrumRgb.r
      (fun a b => rfl) (fun x d => rfl) (fun m x => rfl) hs.1 hk
    have hg := combinedBuffer_replicate_proj k n s SpectrumRgb.g
      (fun a b => rfl) (fun x d => rfl) (fun m x => rfl) hs.2.1 hk
    have hb := combinedBuffer_replicate_proj k n s SpectrumRgb.b
      (fun a b => rfl) (fun x d => rfl) (fun m x => rfl) hs.2.2 hk
    have h1 : combinedBuffer (List.replicate k s) n = ⟨s.r, s.g, s.b⟩ := by
      rw [← hr, ← hg, ← hb]
    simpa using h1

/-- Witness for C7: a two-frame one-bin buffer with entries 1 and 3, and a
three-fold replication of the frame with entry 2. -/
theorem claim_C7_witness :
    ((combinedBuffer [⟨[1], [1], [1]⟩, ⟨[3], [3], [3]⟩] 1).r.getD 0 0
        = (([⟨[1], [1], [1]⟩, ⟨[3], [3], [3]⟩] : List SpectrumRgb).map
            (fun t => t.r.getD 0 0)).sum /
          ((([⟨[1], [1], [1]⟩, ⟨[3], [3], [3]⟩] : List SpectrumRgb).length : ℚ))
      ∧ (combinedBuffer [⟨[1], [1], [1]⟩, ⟨[3], [3], [3]⟩] 1).g.getD 0 0
        = (([⟨[1], [1], [1]⟩, ⟨[3], [3], [3]⟩] : List SpectrumRgb).map
            (fun t => t.g.getD 0 0)).sum /
          ((([⟨[1], [1], [1]⟩, ⟨[3], [3], [3]⟩] : List SpectrumRgb).length : ℚ))
      ∧ (combinedBuffer [⟨[1], [1], [1]⟩, ⟨[3], [3], [3]⟩] 1).b.getD 0 0
        = (([⟨[1], [1], [1]⟩, ⟨[3], [3], [3]⟩] : List SpectrumRgb).map
            (fun t => t.b.getD 0 0)).sum /
          ((([⟨[1], [1], [1]⟩, ⟨[3], [3], [3]⟩] : List SpectrumRgb).length : ℚ)))
    ∧ combinedBuffer (List.replicate 3 ⟨[2], [2], [2]⟩) 1 = ⟨[2], [2], [2]⟩ :=
  claim_C7 [⟨[1], [1], [1]⟩, ⟨[3], [3], [3]⟩] 1 3 0 ⟨[2], [2], [2]⟩
    (by
      intro t ht
      simp only [List.mem_cons, List.not_mem_nil, or_false] at ht
      rcases ht with rfl | rfl <;> simp)
    (by norm_num) (by simp) (by norm_num)

end SpectroCam
